import Mathlib

/-!
Verification development for a WebGPU whiteboard demo (batched line drawing,
camera pan/zoom, multi-pass rendering).  The definitions below are a shallow
embedding of the TypeScript sources: `Batch` and `Renderer` from the renderer
module, and the camera / stroke / image-placement event handlers from the main
module.  JavaScript numbers are modelled as real numbers; GPU and DOM calls are
I/O and are not modelled, but every state mutation and every value computed by
the embedded functions follows the source line by line (gl-matrix `mat3` is
column-major: entries 0..8 are the three columns; `translate`, `scale`,
`invert`, `normalize` and `transformMat3` are reproduced from gl-matrix).
-/

/-- A 2-component vector, as gl-matrix `vec2`. -/
@[ext]
structure Vec2 where
  x : ℝ
  y : ℝ

def Vec2.add (a b : Vec2) : Vec2 := ⟨a.x + b.x, a.y + b.y⟩

def Vec2.sub (a b : Vec2) : Vec2 := ⟨a.x - b.x, a.y - b.y⟩

/-- gl-matrix `vec2.scale(out, a, s)`. -/
def Vec2.scale (a : Vec2) (s : ℝ) : Vec2 := ⟨a.x * s, a.y * s⟩

def Vec2.neg (a : Vec2) : Vec2 := ⟨-a.x, -a.y⟩

/-- A 3x3 matrix in gl-matrix flat column-major layout: `m0 m1 m2` is the first
column, `m3 m4 m5` the second, `m6 m7 m8` the third (translation) column. -/
@[ext]
structure Mat3 where
  m0 : ℝ
  m1 : ℝ
  m2 : ℝ
  m3 : ℝ
  m4 : ℝ
  m5 : ℝ
  m6 : ℝ
  m7 : ℝ
  m8 : ℝ

/-- `mat3.create()`: the identity matrix. -/
def Mat3.identity : Mat3 := ⟨1, 0, 0, 0, 1, 0, 0, 0, 1⟩

/-- gl-matrix `mat3.translate(out, a, v)`. -/
def Mat3.translate (a : Mat3) (v : Vec2) : Mat3 :=
  ⟨a.m0, a.m1, a.m2, a.m3, a.m4, a.m5,
   v.x * a.m0 + v.y * a.m3 + a.m6,
   v.x * a.m1 + v.y * a.m4 + a.m7,
   v.x * a.m2 + v.y * a.m5 + a.m8⟩

/-- gl-matrix `mat3.scale(out, a, v)`. -/
def Mat3.scaleM (a : Mat3) (v : Vec2) : Mat3 :=
  ⟨v.x * a.m0, v.x * a.m1, v.x * a.m2,
   v.y * a.m3, v.y * a.m4, v.y * a.m5,
   a.m6, a.m7, a.m8⟩

/-- gl-matrix `mat3.multiply(out, a, b)`. -/
def Mat3.mul (a b : Mat3) : Mat3 :=
  ⟨b.m0 * a.m0 + b.m1 * a.m3 + b.m2 * a.m6,
   b.m0 * a.m1 + b.m1 * a.m4 + b.m2 * a.m7,
   b.m0 * a.m2 + b.m1 * a.m5 + b.m2 * a.m8,
   b.m3 * a.m0 + b.m4 * a.m3 + b.m5 * a.m6,
   b.m3 * a.m1 + b.m4 * a.m4 + b.m5 * a.m7,
   b.m3 * a.m2 + b.m4 * a.m5 + b.m5 * a.m8,
   b.m6 * a.m0 + b.m7 * a.m3 + b.m8 * a.m6,
   b.m6 * a.m1 + b.m7 * a.m4 + b.m8 * a.m7,
   b.m6 * a.m2 + b.m7 * a.m5 + b.m8 * a.m8⟩

/-- The determinant exactly as gl-matrix `mat3.invert` computes it. -/
def Mat3.det (a : Mat3) : ℝ :=
  a.m0 * (a.m8 * a.m4 - a.m5 * a.m7) +
  a.m1 * (-a.m8 * a.m3 + a.m5 * a.m6) +
  a.m2 * (a.m7 * a.m3 - a.m4 * a.m6)

/-- Every entry scaled by a constant (gl-matrix `mat3.invert` multiplies each
cofactor by the reciprocal determinant). -/
def Mat3.smulM (c : ℝ) (a : Mat3) : Mat3 :=
  ⟨c * a.m0, c * a.m1, c * a.m2, c * a.m3, c * a.m4, c * a.m5, c * a.m6, c * a.m7, c * a.m8⟩

/-- The cofactor matrix gl-matrix `mat3.invert` assembles (entries `b01`,
`(-a22 * a01 + a02 * a21)`, ... before the `* det` scaling). -/
def Mat3.cofactorT (a : Mat3) : Mat3 :=
  ⟨a.m8 * a.m4 - a.m5 * a.m7,
   -a.m8 * a.m1 + a.m2 * a.m7,
   a.m5 * a.m1 - a.m2 * a.m4,
   -a.m8 * a.m3 + a.m5 * a.m6,
   a.m8 * a.m0 - a.m2 * a.m6,
   -a.m5 * a.m0 + a.m2 * a.m3,
   a.m7 * a.m3 - a.m4 * a.m6,
   -a.m7 * a.m0 + a.m1 * a.m6,
   a.m4 * a.m0 - a.m1 * a.m3⟩

/-- The matrix written by gl-matrix `mat3.invert` when the determinant is
nonzero: each cofactor times the reciprocal determinant. -/
noncomputable def Mat3.invertFormula (a : Mat3) : Mat3 :=
  Mat3.smulM (1 / a.det) a.cofactorT

/-- The pattern `inverseCamera = mat3.create(); mat3.invert(inverseCamera, m)`:
`mat3.invert` returns null and writes nothing when the determinant is zero, in
which case the freshly created identity is left in place. -/
noncomputable def Mat3.invertOrId (a : Mat3) : Mat3 :=
  if a.det = 0 then Mat3.identity else a.invertFormula

/-- gl-matrix `vec2.transformMat3(out, a, m)`: affine application of `m`
to the point `a` (the same formula the vertex shader applies, via
`(camera * vec3f(pos, 1)).xy`). -/
def Mat3.transformPoint (m : Mat3) (p : Vec2) : Vec2 :=
  ⟨m.m0 * p.x + m.m3 * p.y + m.m6, m.m1 * p.x + m.m4 * p.y + m.m7⟩

/-! ## Batch and Renderer (renderer module) -/

/-- The mutable fields of `class Batch`: staged vertex floats and index
integers, byte write cursors `vstart`/`istart` into the device buffers, and
accumulated vertex/index counts.  The GPU buffer objects are I/O handles and
are not modelled. -/
structure BatchR where
  vertices : List ℝ
  indices : List ℕ
  vstart : ℕ
  istart : ℕ
  vcount : ℕ
  icount : ℕ

/-- A batch as the `Batch` constructor initialises it. -/
def BatchR.new : BatchR := ⟨[], [], 0, 0, 0, 0⟩

/-- `Batch.send()`: upload staged data at the current cursors (I/O, not
modelled), advance each cursor by the staged length times 4 bytes, and reset
the staging lists. -/
def BatchR.send (b : BatchR) : BatchR :=
  { b with
    vstart := b.vstart + b.vertices.length * 4
    istart := b.istart + b.indices.length * 4
    vertices := []
    indices := [] }

/-- The mutable fields of `class Renderer`: the static clear-color option and
the parallel `bindGroups` / `batches` lists.  Bind groups are opaque GPU
handles, modelled by an arbitrary type `G`. -/
structure RendererR (G : Type) where
  clearColor : Option (ℝ × ℝ × ℝ × ℝ)
  bindGroups : List G
  batches : List BatchR

/-- The `Renderer` constructor: both lists start empty. -/
def RendererR.init (G : Type) (c : Option (ℝ × ℝ × ℝ × ℝ)) : RendererR G :=
  ⟨c, [], []⟩

/-- `Renderer.addGroup(group)`: push the bind group and a fresh `Batch`. -/
def RendererR.addGroup {G : Type} (r : RendererR G) (g : G) : RendererR G :=
  { r with
    bindGroups := r.bindGroups ++ [g]
    batches := r.batches ++ [BatchR.new] }

/-- Observable record of one render pass issued by the `render()` loop body:
which bind group was bound (`none` models the out-of-range `undefined` read),
whether the pass clears or loads, and the size of the indexed draw (`none`
when `if (batch.icount)` skips `drawIndexed`). -/
structure PassRecord (G : Type) where
  group : Option G
  clears : Bool
  draw : Option ℕ

/-- The pass issued at loop index `i` of `Renderer.render()`. -/
def RendererR.mkPass {G : Type} (r : RendererR G) (i : ℕ) : PassRecord G :=
  { group := r.bindGroups[i]?
    clears := r.clearColor.isSome
    draw := match r.batches[i]? with
            | some b => if b.icount = 0 then none else some b.icount
            | none => none }

/-- `Renderer.render()`: for `i` from 0 to `batches.length - 1`, send batch
`i` and issue one pass built from pair `i`.  The result is the updated
renderer state together with the ordered list of passes issued. -/
def RendererR.render {G : Type} (r : RendererR G) :
    RendererR G × List (PassRecord G) :=
  ({ r with batches := r.batches.map BatchR.send },
   (List.range r.batches.length).map r.mkPass)

/-! ## Claims about Batch and Renderer -/

/-- C6: `Batch.send` advances `vstart` and `istart` by exactly 4 times the
length of the staged vertex and index lists respectively and empties both
staged lists; in particular the cursors never decrease, and when both staged
lists are empty a call leaves `vstart` and `istart` unchanged. -/
theorem batch_send_cursors (b : BatchR) :
    b.send.vstart = b.vstart + b.vertices.length * 4 ∧
    b.send.istart = b.istart + b.indices.length * 4 ∧
    b.send.vertices = [] ∧
    b.send.indices = [] ∧
    b.vstart ≤ b.send.vstart ∧
    b.istart ≤ b.send.istart ∧
    (b.vertices = [] → b.indices = [] →
      b.send.vstart = b.vstart ∧ b.send.istart = b.istart) := by
  refine ⟨rfl, rfl, rfl, rfl, Nat.le_add_right _ _, Nat.le_add_right _ _, ?_⟩
  intro hv hi
  simp [BatchR.send, hv, hi]

theorem batch_send_cursors_witness :
    (BatchR.send ⟨[], [], 5, 7, 0, 0⟩).vstart = 5 ∧
    (BatchR.send ⟨[], [], 5, 7, 0, 0⟩).istart = 7 :=
  (batch_send_cursors ⟨[], [], 5, 7, 0, 0⟩).2.2.2.2.2.2 rfl rfl

/-- C8: the parallel lists `bindGroups` and `batches` have equal length after
construction and after every `addGroup` call, and `addGroup` places the new
bind group and the new `Batch` at the same index (the common old length), so
index `i`'s bind group is always paired with `batches[i]`. -/
theorem renderer_parallel_lists {G : Type} (c : Option (ℝ × ℝ × ℝ × ℝ))
    (r : RendererR G) (g : G)
    (h : r.bindGroups.length = r.batches.length) :
    (RendererR.init G c).bindGroups.length = (RendererR.init G c).batches.length ∧
    (r.addGroup g).bindGroups.length = (r.addGroup g).batches.length ∧
    (r.addGroup g).bindGroups[r.bindGroups.length]? = some g ∧
    (r.addGroup g).batches[r.bindGroups.length]? = some BatchR.new ∧
    (r.addGroup g).bindGroups.length = r.bindGroups.length + 1 := by
  refine ⟨rfl, ?_, ?_, ?_, ?_⟩
  · simp [RendererR.addGroup, h]
  · simp only [RendererR.addGroup]
    exact List.getElem?_concat_length r.bindGroups g
  · rw [h]
    simp only [RendererR.addGroup]
    exact List.getElem?_concat_length r.batches BatchR.new
  · simp [RendererR.addGroup]

theorem renderer_parallel_lists_witness :
    ((RendererR.init ℕ none).addGroup 3).bindGroups[0]? = some 3 :=
  (renderer_parallel_lists none (RendererR.init ℕ none) 3 rfl).2.2.1

/-- C7: `render()` iterates the (bind group, batch) pairs exactly once each in
insertion order; it sends (flushes) every batch; pass `i` binds bind group `i`
and draws that batch's accumulated `icount` indices, skipping the draw exactly
when `icount` is zero; the number of passes equals the number of pairs. -/
theorem render_pass_structure {G : Type} (r : RendererR G) :
    r.render.1.batches = r.batches.map BatchR.send ∧
    r.render.2.length = r.batches.length ∧
    ∀ (i : ℕ) (b : BatchR), r.batches[i]? = some b →
      r.render.2[i]? = some
        { group := r.bindGroups[i]?
          clears := r.clearColor.isSome
          draw := if b.icount = 0 then none else some b.icount } := by
  refine ⟨rfl, by simp [RendererR.render], ?_⟩
  intro i b hb
  have hi : i < r.batches.length := by
    by_contra hcon
    rw [List.getElem?_eq_none (by omega)] at hb
    cases hb
  simp only [RendererR.render, List.getElem?_map, List.getElem?_range hi,
    Option.map_some]
  simp [RendererR.mkPass, hb]

theorem render_pass_structure_witness :
    (RendererR.render ⟨none, [0], [⟨[], [], 0, 0, 4, 6⟩]⟩ : RendererR ℕ × _).2[0]? =
      some { group := some 0, clears := false, draw := some 6 } := by
  have h := (render_pass_structure (⟨none, [0], [⟨[], [], 0, 0, 4, 6⟩]⟩ : RendererR ℕ)).2.2
    0 ⟨[], [], 0, 0, 4, 6⟩ rfl
  simpa using h

/-! ## Camera state and gestures (main module) -/

/-- `Math.pow(10, -5)`. -/
noncomputable def MIN_ZOOM : ℝ := (10 : ℝ) ^ (-5 : ℤ)

/-- `Math.pow(10, 5)`. -/
noncomputable def MAX_ZOOM : ℝ := (10 : ℝ) ^ (5 : ℤ)

/-- JavaScript `Math.sign`. -/
noncomputable def jsign (x : ℝ) : ℝ := if x < 0 then -1 else if 0 < x then 1 else 0

/-- `toWorld(pos)`: canvas pixels to normalized device coordinates, for a
canvas of size `W` by `H`. -/
noncomputable def toWorld (W H : ℝ) (pos : Vec2) : Vec2 :=
  ⟨pos.x / W * 2 - 1, pos.y / H * 2 - 1⟩

/-- `toView(pos)`: apply the stored inverse camera matrix to a point. -/
def toView (inverseCamera : Mat3) (pos : Vec2) : Vec2 :=
  inverseCamera.transformPoint pos

/-- The camera-related mutable state of the main module: the `camera` matrix
and the eagerly recomputed `inverseCamera`. -/
structure CamState where
  camera : Mat3
  inverseCamera : Mat3

/-- Both matrices start as `mat3.create()`. -/
def initCamState : CamState := ⟨Mat3.identity, Mat3.identity⟩

/-- `panMouse(e)` with mouse movement `(dx, dy)`: translate the camera by the
NDC-converted delta scaled by `1 / camera[0]`, then recompute the inverse. -/
noncomputable def panMouseStep (W H dx dy : ℝ) (s : CamState) : CamState :=
  let normalized := Vec2.scale (Vec2.add (toWorld W H ⟨dx, -dy⟩) ⟨1, 1⟩) (1 / s.camera.m0)
  let cam := s.camera.translate normalized
  ⟨cam, cam.invertOrId⟩

/-- The factor `Math.pow(1.01, Math.sign(e.deltaY) * Math.log(Math.abs(e.deltaY)))`. -/
noncomputable def wheelZoomScale (deltaY : ℝ) : ℝ :=
  (1.01 : ℝ) ^ (jsign deltaY * Real.log |deltaY|)

/-- The `translate, scale, translate back` sequence `onWheel` performs around
the cursor offset `m` with uniform factor `k` (used once for the zoom itself
and once more for the clamp correction). -/
noncomputable def zoomAbout (a : Mat3) (m : Vec2) (k : ℝ) : Mat3 :=
  ((a.translate m).scaleM ⟨k, k⟩).translate m.neg

/-- `toView(toWorld(...))` of the y-flipped cursor position: the point under
the cursor in stored-vertex coordinates. -/
noncomputable def wheelAnchor (W H : ℝ) (lastMouse : Vec2) (s : CamState) : Vec2 :=
  toView s.inverseCamera (toWorld W H ⟨lastMouse.x, H - lastMouse.y⟩)

/-- `mouseOffset = mouseView - cameraPos`, where the source reads
`cameraPos = (camera[2], camera[5])`. -/
noncomputable def wheelMouseOffset (W H : ℝ) (lastMouse : Vec2) (s : CamState) : Vec2 :=
  Vec2.sub (wheelAnchor W H lastMouse s) ⟨s.camera.m2, s.camera.m5⟩

/-- The camera after the unclamped zoom about the cursor. -/
noncomputable def wheelZoomedCam (W H deltaY : ℝ) (lastMouse : Vec2) (s : CamState) : Mat3 :=
  zoomAbout s.camera (wheelMouseOffset W H lastMouse s) (wheelZoomScale deltaY)

/-- The corrective factor that clamps `camera[0]` into `[MIN_ZOOM, MAX_ZOOM]`. -/
noncomputable def wheelClampFactor (m0 : ℝ) : ℝ :=
  if m0 < MIN_ZOOM then MIN_ZOOM / m0 else if MAX_ZOOM < m0 then MAX_ZOOM / m0 else 1

/-- The camera written back by a guard-passing `onWheel` call: the clamp block
runs only `if (factor != 1)`, repeating the translate/scale/translate around
the same cursor offset. -/
noncomputable def onWheelCamera (W H deltaY : ℝ) (lastMouse : Vec2) (s : CamState) : Mat3 :=
  if wheelClampFactor (wheelZoomedCam W H deltaY lastMouse s).m0 = 1 then
    wheelZoomedCam W H deltaY lastMouse s
  else
    zoomAbout (wheelZoomedCam W H deltaY lastMouse s) (wheelMouseOffset W H lastMouse s)
      (wheelClampFactor (wheelZoomedCam W H deltaY lastMouse s).m0)

/-- `onWheel(e)`: early return when `e.deltaY` is zero (`lastMouse`, a vec2
typed array, is always truthy), otherwise zoom about the cursor, clamp, and
recompute the inverse matrix. -/
noncomputable def onWheelStep (W H deltaY : ℝ) (lastMouse : Vec2) (s : CamState) : CamState :=
  if deltaY = 0 then s
  else ⟨onWheelCamera W H deltaY lastMouse s,
        (onWheelCamera W H deltaY lastMouse s).invertOrId⟩

/-- A sequence of wheel events, each carrying the `lastMouse` recorded by the
preceding mouse moves. -/
noncomputable def wheelFold (W H : ℝ) (evs : List (ℝ × Vec2)) (s : CamState) : CamState :=
  evs.foldl (fun st e => onWheelStep W H e.1 e.2 st) s

lemma zoomAbout_m0 (a : Mat3) (m : Vec2) (k : ℝ) : (zoomAbout a m k).m0 = k * a.m0 := rfl

lemma MIN_ZOOM_pos : (0 : ℝ) < MIN_ZOOM := by unfold MIN_ZOOM; positivity

lemma MIN_ZOOM_le_MAX_ZOOM : MIN_ZOOM ≤ MAX_ZOOM := by
  unfold MIN_ZOOM MAX_ZOOM; norm_num

lemma wheelZoomScale_pos (d : ℝ) : 0 < wheelZoomScale d :=
  Real.rpow_pos_of_pos (by norm_num) _

lemma clampResult (t : ℝ) (ht : 0 < t) :
    MIN_ZOOM ≤ (if wheelClampFactor t = 1 then t else wheelClampFactor t * t) ∧
    (if wheelClampFactor t = 1 then t else wheelClampFactor t * t) ≤ MAX_ZOOM := by
  unfold wheelClampFactor
  rcases lt_or_le t MIN_ZOOM with h1 | h1
  · rw [if_pos h1]
    have hgt : 1 < MIN_ZOOM / t := (one_lt_div ht).2 h1
    rw [if_neg (ne_of_gt hgt), div_mul_cancel₀ _ (ne_of_gt ht)]
    exact ⟨le_refl _, MIN_ZOOM_le_MAX_ZOOM⟩
  · rw [if_neg (not_lt.2 h1)]
    rcases lt_or_le MAX_ZOOM t with h2 | h2
    · rw [if_pos h2]
      have hlt : MAX_ZOOM / t < 1 := (div_lt_one ht).2 h2
      rw [if_neg (ne_of_lt hlt), div_mul_cancel₀ _ (ne_of_gt ht)]
      exact ⟨MIN_ZOOM_le_MAX_ZOOM, le_refl _⟩
    · rw [if_neg (not_lt.2 h2), if_pos rfl]
      exact ⟨h1, h2⟩

lemma onWheelCamera_m0 (W H d : ℝ) (lm : Vec2) (s : CamState) :
    (onWheelCamera W H d lm s).m0 =
      (if wheelClampFactor (wheelZoomedCam W H d lm s).m0 = 1 then
        (wheelZoomedCam W H d lm s).m0
       else wheelClampFactor (wheelZoomedCam W H d lm s).m0 * (wheelZoomedCam W H d lm s).m0) := by
  unfold onWheelCamera
  split_ifs with h
  · rfl
  · exact zoomAbout_m0 _ _ _

lemma onWheelCamera_m0_mem (W H d : ℝ) (lm : Vec2) (s : CamState)
    (hpos : 0 < s.camera.m0) :
    MIN_ZOOM ≤ (onWheelCamera W H d lm s).m0 ∧ (onWheelCamera W H d lm s).m0 ≤ MAX_ZOOM := by
  have ht : 0 < (wheelZoomedCam W H d lm s).m0 := by
    rw [wheelZoomedCam, zoomAbout_m0]
    exact mul_pos (wheelZoomScale_pos d) hpos
  rw [onWheelCamera_m0]
  exact clampResult _ ht

/-- C2: starting from the initial identity camera, no finite sequence of wheel
events drives the camera's scale component `camera[0]` outside the interval
`[1e-5, 1e5]` (quantifying over all sequences covers every prefix, i.e. the
state after every event). -/
theorem zoom_scale_clamped (W H : ℝ) (evs : List (ℝ × Vec2)) :
    MIN_ZOOM ≤ (wheelFold W H evs initCamState).camera.m0 ∧
    (wheelFold W H evs initCamState).camera.m0 ≤ MAX_ZOOM := by
  have key : ∀ (l : List (ℝ × Vec2)) (s : CamState),
      MIN_ZOOM ≤ s.camera.m0 → s.camera.m0 ≤ MAX_ZOOM →
      MIN_ZOOM ≤ (wheelFold W H l s).camera.m0 ∧
        (wheelFold W H l s).camera.m0 ≤ MAX_ZOOM := by
    intro l
    induction l with
    | nil => intro s h1 h2; exact ⟨h1, h2⟩
    | cons e rest ih =>
      intro s h1 h2
      have hpos : 0 < s.camera.m0 := lt_of_lt_of_le MIN_ZOOM_pos h1
      have hstep : wheelFold W H (e :: rest) s =
          wheelFold W H rest (onWheelStep W H e.1 e.2 s) := rfl
      rw [hstep]
      by_cases hd : e.1 = 0
      · have h0 : onWheelStep W H e.1 e.2 s = s := by simp [onWheelStep, hd]
        rw [h0]
        exact ih s h1 h2
      · have h0 : (onWheelStep W H e.1 e.2 s).camera = onWheelCamera W H e.1 e.2 s := by
          simp [onWheelStep, hd]
        have hm := onWheelCamera_m0_mem W H e.1 e.2 s hpos
        exact ih _ (by rw [h0]; exact hm.1) (by rw [h0]; exact hm.2)
  refine key evs initCamState ?_ ?_
  · show MIN_ZOOM ≤ 1
    unfold MIN_ZOOM
    norm_num
  · show (1 : ℝ) ≤ MAX_ZOOM
    unfold MAX_ZOOM
    norm_num

/-! ## Reachable camera shape and the inverse-matrix invariant -/

/-- The shape every camera reachable by pan/zoom gestures has: uniform
diagonal linear part with positive scale, zero shear, bottom row `(0 0 1)`
(entries 2, 5 are zero and entry 8 is one in the flat layout). -/
def goodCam (a : Mat3) : Prop :=
  a.m1 = 0 ∧ a.m2 = 0 ∧ a.m3 = 0 ∧ a.m5 = 0 ∧ a.m4 = a.m0 ∧ a.m8 = 1 ∧ 0 < a.m0

lemma goodCam_identity : goodCam Mat3.identity := by
  refine ⟨rfl, rfl, rfl, rfl, rfl, rfl, ?_⟩
  norm_num [Mat3.identity]

lemma goodCam_translate {a : Mat3} (h : goodCam a) (v : Vec2) : goodCam (a.translate v) := by
  obtain ⟨h1, h2, h3, h5, h4, h8, h0⟩ := h
  refine ⟨h1, h2, h3, h5, h4, ?_, h0⟩
  simp [Mat3.translate, h2, h5, h8]

lemma goodCam_scaleM {a : Mat3} (h : goodCam a) {k : ℝ} (hk : 0 < k) :
    goodCam (a.scaleM ⟨k, k⟩) := by
  obtain ⟨h1, h2, h3, h5, h4, h8, h0⟩ := h
  exact ⟨by simp [Mat3.scaleM, h1], by simp [Mat3.scaleM, h2], by simp [Mat3.scaleM, h3],
    by simp [Mat3.scaleM, h5], by simp [Mat3.scaleM, h4], h8, mul_pos hk h0⟩

lemma goodCam_zoomAbout {a : Mat3} (h : goodCam a) (m : Vec2) {k : ℝ} (hk : 0 < k) :
    goodCam (zoomAbout a m k) :=
  goodCam_translate (goodCam_scaleM (goodCam_translate h m) hk) m.neg

lemma wheelClampFactor_pos {t : ℝ} (ht : 0 < t) : 0 < wheelClampFactor t := by
  unfold wheelClampFactor
  split_ifs
  · exact div_pos MIN_ZOOM_pos ht
  · exact div_pos (lt_of_lt_of_le MIN_ZOOM_pos MIN_ZOOM_le_MAX_ZOOM) ht
  · norm_num

lemma goodCam_onWheelCamera {W H d : ℝ} {lm : Vec2} {s : CamState}
    (h : goodCam s.camera) : goodCam (onWheelCamera W H d lm s) := by
  have hz : goodCam (wheelZoomedCam W H d lm s) :=
    goodCam_zoomAbout h _ (wheelZoomScale_pos d)
  unfold onWheelCamera
  split_ifs with hc
  · exact hz
  · exact goodCam_zoomAbout hz _ (wheelClampFactor_pos hz.2.2.2.2.2.2)

lemma goodCam_det {a : Mat3} (h : goodCam a) : a.det = a.m0 * a.m0 := by
  obtain ⟨h1, h2, h3, h5, h4, h8, h0⟩ := h
  simp only [Mat3.det, h1, h2, h5, h8, h4]
  ring

lemma mul_smulM_left (c : ℝ) (a b : Mat3) :
    (Mat3.smulM c a).mul b = Mat3.smulM c (a.mul b) := by
  ext <;> simp only [Mat3.mul, Mat3.smulM] <;> ring

lemma cofactorT_mul (a : Mat3) :
    (a.cofactorT).mul a = Mat3.smulM a.det Mat3.identity := by
  ext <;> simp only [Mat3.mul, Mat3.cofactorT, Mat3.smulM, Mat3.identity, Mat3.det] <;> ring

lemma invertFormula_mul {a : Mat3} (h : a.det ≠ 0) :
    (a.invertFormula).mul a = Mat3.identity := by
  rw [Mat3.invertFormula, mul_smulM_left, cofactorT_mul]
  ext <;> simp only [Mat3.smulM, Mat3.identity] <;>
    field_simp

lemma invertOrId_mul {a : Mat3} (h : a.det ≠ 0) : (a.invertOrId).mul a = Mat3.identity := by
  rw [Mat3.invertOrId, if_neg h]
  exact invertFormula_mul h

/-- Camera-mutating input events: a pan gesture (ctrl- or middle-button drag)
and a wheel event with the cursor position it sees in `lastMouse`. -/
inductive CamEv where
  | pan (dx dy : ℝ)
  | wheel (deltaY : ℝ) (mouse : Vec2)

noncomputable def camStep (W H : ℝ) (s : CamState) : CamEv → CamState
  | CamEv.pan dx dy => panMouseStep W H dx dy s
  | CamEv.wheel d m => onWheelStep W H d m s

/-- The camera state after an arbitrary pan/wheel gesture history, from the
initial identity state. -/
noncomputable def camFold (W H : ℝ) (evs : List CamEv) : CamState :=
  evs.foldl (camStep W H) initCamState

lemma goodCam_panMouseStep {W H dx dy : ℝ} {s : CamState} (h : goodCam s.camera) :
    goodCam (panMouseStep W H dx dy s).camera := by
  simp only [panMouseStep]
  exact goodCam_translate h _

lemma goodCam_onWheelStep {W H d : ℝ} {lm : Vec2} {s : CamState} (h : goodCam s.camera) :
    goodCam (onWheelStep W H d lm s).camera := by
  unfold onWheelStep
  split_ifs with hd
  · exact h
  · exact goodCam_onWheelCamera h

lemma goodCam_camFold (W H : ℝ) (evs : List CamEv) : goodCam (camFold W H evs).camera := by
  have key : ∀ (l : List CamEv) (s : CamState), goodCam s.camera →
      goodCam (l.foldl (camStep W H) s).camera := by
    intro l
    induction l with
    | nil => intro s hs; exact hs
    | cons e rest ih =>
      intro s hs
      refine ih _ ?_
      cases e with
      | pan dx dy => exact goodCam_panMouseStep hs
      | wheel d m => exact goodCam_onWheelStep hs
  exact key evs initCamState goodCam_identity

/-- `panMouse` always ends by recomputing the inverse; `onWheel` does so only
after passing the `deltaY` guard. -/
def camGuard : CamEv → Prop
  | CamEv.pan _ _ => True
  | CamEv.wheel d _ => d ≠ 0

/-- C5: after every completed `panMouse` call and every `onWheel` call passing
the `deltaY` guard, applied in any reachable camera state, the stored
`inverseCamera` is an exact (in real arithmetic) inverse of the updated
camera: `inverseCamera * camera` is the identity matrix. -/
theorem inverse_tracks_camera (W H : ℝ) (evs : List CamEv) (e : CamEv)
    (hg : camGuard e) :
    ((camStep W H (camFold W H evs) e).inverseCamera).mul
        (camStep W H (camFold W H evs) e).camera = Mat3.identity := by
  have hgood : goodCam (camFold W H evs).camera := goodCam_camFold W H evs
  cases e with
  | pan dx dy =>
    have hg2 : goodCam (panMouseStep W H dx dy (camFold W H evs)).camera :=
      goodCam_panMouseStep hgood
    have hdet : (panMouseStep W H dx dy (camFold W H evs)).camera.det ≠ 0 := by
      rw [goodCam_det hg2]
      exact ne_of_gt (mul_pos hg2.2.2.2.2.2.2 hg2.2.2.2.2.2.2)
    simp only [camStep]
    have hinv : (panMouseStep W H dx dy (camFold W H evs)).inverseCamera =
        ((panMouseStep W H dx dy (camFold W H evs)).camera).invertOrId := by
      simp only [panMouseStep]
    rw [hinv]
    exact invertOrId_mul hdet
  | wheel d m =>
    have hd : d ≠ 0 := hg
    have hcam : (onWheelStep W H d m (camFold W H evs)).camera =
        onWheelCamera W H d m (camFold W H evs) := by
      simp [onWheelStep, hd]
    have hinv : (onWheelStep W H d m (camFold W H evs)).inverseCamera =
        (onWheelCamera W H d m (camFold W H evs)).invertOrId := by
      simp [onWheelStep, hd]
    have hg2 : goodCam (onWheelCamera W H d m (camFold W H evs)) :=
      goodCam_onWheelCamera hgood
    have hdet : (onWheelCamera W H d m (camFold W H evs)).det ≠ 0 := by
      rw [goodCam_det hg2]
      exact ne_of_gt (mul_pos hg2.2.2.2.2.2.2 hg2.2.2.2.2.2.2)
    simp only [camStep]
    rw [hinv, hcam]
    exact invertOrId_mul hdet

theorem inverse_tracks_camera_witness :
    ((camStep 800 600 (camFold 800 600 []) (CamEv.pan 3 4)).inverseCamera).mul
        (camStep 800 600 (camFold 800 600 []) (CamEv.pan 3 4)).camera = Mat3.identity :=
  inverse_tracks_camera 800 600 [] (CamEv.pan 3 4) trivial

/-! ## Zoom anchor invariance and pan translation delta -/

lemma zoomAbout_fixes (a : Mat3) (m : Vec2) (k : ℝ) :
    (zoomAbout a m k).transformPoint m = a.transformPoint m := by
  ext <;> simp only [zoomAbout, Mat3.translate, Mat3.scaleM, Mat3.transformPoint, Vec2.neg] <;>
    ring

/-- C3: for a wheel event with nonzero `deltaY`, in any camera state reachable
by pan/wheel gestures, the stored-coordinate point under the cursor
(`toView(toWorld(...))` of the flipped cursor) maps to the same on-screen
coordinate under the camera transform before and after the zoom step: the zoom
is anchored at the cursor.  (The stray `cameraPos = (camera[2], camera[5])`
read subtracts entries that are always zero on reachable cameras.) -/
theorem zoom_anchor_invariance (W H deltaY : ℝ) (lm : Vec2) (evs : List CamEv)
    (hd : deltaY ≠ 0) :
    ((onWheelStep W H deltaY lm (camFold W H evs)).camera).transformPoint
        (wheelAnchor W H lm (camFold W H evs)) =
      ((camFold W H evs).camera).transformPoint (wheelAnchor W H lm (camFold W H evs)) := by
  have hgood := goodCam_camFold W H evs
  have h2 : (camFold W H evs).camera.m2 = 0 := hgood.2.1
  have h5 : (camFold W H evs).camera.m5 = 0 := hgood.2.2.2.1
  have hmo : wheelMouseOffset W H lm (camFold W H evs) = wheelAnchor W H lm (camFold W H evs) := by
    unfold wheelMouseOffset
    ext <;> simp [Vec2.sub, h2, h5]
  have hcam : (onWheelStep W H deltaY lm (camFold W H evs)).camera =
      onWheelCamera W H deltaY lm (camFold W H evs) := by
    simp [onWheelStep, hd]
  rw [hcam]
  unfold onWheelCamera wheelZoomedCam
  rw [hmo]
  split_ifs with hc
  · exact zoomAbout_fixes _ _ _
  · rw [zoomAbout_fixes, zoomAbout_fixes]

theorem zoom_anchor_invariance_witness :
    ((onWheelStep 1 1 3 ⟨0, 0⟩ (camFold 1 1 [])).camera).transformPoint
        (wheelAnchor 1 1 ⟨0, 0⟩ (camFold 1 1 [])) =
      ((camFold 1 1 []).camera).transformPoint (wheelAnchor 1 1 ⟨0, 0⟩ (camFold 1 1 [])) :=
  zoom_anchor_invariance 1 1 3 ⟨0, 0⟩ [] (by norm_num)

/-- A camera at uniform zoom 2 (the shape produced by a zoom-in wheel
gesture from the identity). -/
def camTwo : Mat3 := ⟨2, 0, 0, 0, 2, 0, 0, 0, 1⟩

/-- C4 counterexample: at zoom factor `camera[0] = 2` with a 100x100 canvas,
a pan of device delta `(50, 0)` moves the translation entry `camera[6]` by 1,
not by the claimed `(2 * 50 / 100) * (1 / camera[0]) = 1/2`: the translation
column does not change by the NDC delta scaled by the inverse zoom. -/
theorem pan_translation_counterexample :
    ¬ ((panMouseStep 100 100 50 0 ⟨camTwo, Mat3.identity⟩).camera.m6 =
        camTwo.m6 + (2 * 50 / 100) * (1 / camTwo.m0)) := by
  simp only [panMouseStep, camTwo, toWorld, Vec2.add, Vec2.scale, Mat3.translate]
  norm_num

/-- C4 amended: `panMouse` translates in camera-local coordinates by the NDC
delta scaled by `1 / camera[0]`; because every reachable camera has uniform
diagonal linear part `camera[0] = camera[4]` (zero off-diagonals), the
inverse-zoom factor cancels against the camera's own scale, so the translation
column `(camera[6], camera[7])` changes by exactly the NDC delta
`(2 dx / W, -2 dy / H)`, and the scale components `camera[0..5]` are
unchanged. -/
theorem pan_translation_delta (W H dx dy : ℝ) (evs : List CamEv) :
    (panMouseStep W H dx dy (camFold W H evs)).camera.m6 =
      (camFold W H evs).camera.m6 + 2 * dx / W ∧
    (panMouseStep W H dx dy (camFold W H evs)).camera.m7 =
      (camFold W H evs).camera.m7 - 2 * dy / H ∧
    (panMouseStep W H dx dy (camFold W H evs)).camera.m0 = (camFold W H evs).camera.m0 ∧
    (panMouseStep W H dx dy (camFold W H evs)).camera.m1 = (camFold W H evs).camera.m1 ∧
    (panMouseStep W H dx dy (camFold W H evs)).camera.m2 = (camFold W H evs).camera.m2 ∧
    (panMouseStep W H dx dy (camFold W H evs)).camera.m3 = (camFold W H evs).camera.m3 ∧
    (panMouseStep W H dx dy (camFold W H evs)).camera.m4 = (camFold W H evs).camera.m4 ∧
    (panMouseStep W H dx dy (camFold W H evs)).camera.m5 = (camFold W H evs).camera.m5 := by
  obtain ⟨h1, h2, h3, h5, h4, h8, h0⟩ := goodCam_camFold W H evs
  have h0ne : (camFold W H evs).camera.m0 ≠ 0 := ne_of_gt h0
  refine ⟨?_, ?_, rfl, rfl, rfl, rfl, rfl, rfl⟩
  · simp only [panMouseStep, toWorld, Vec2.add, Vec2.scale, Mat3.translate, h3]
    field_simp
    rw [mul_div_mul_right _ _ h0ne]
    ring
  · simp only [panMouseStep, toWorld, Vec2.add, Vec2.scale, Mat3.translate, h1, h4]
    field_simp
    rw [neg_div, mul_div_mul_right _ _ h0ne]
    ring

/-! ## Freehand stroke builder (drawMouse) -/

/-- `const LINE_WIDTH = 5`, used as the half-width offset on each side. -/
def LINE_WIDTH : ℝ := 5

/-- gl-matrix `vec2.normalize(out, a)`: `len = x*x + y*y`; when positive it is
replaced by `1 / Math.sqrt(len)`; the output is `a` scaled by the resulting
factor (so a zero vector stays zero). -/
noncomputable def vnormalize (v : Vec2) : Vec2 :=
  Vec2.scale v (if 0 < v.x * v.x + v.y * v.y then 1 / Real.sqrt (v.x * v.x + v.y * v.y)
                else v.x * v.x + v.y * v.y)

/-- A quad as the four corner points `(l1, l2, l3, l4)` computed by
`drawMouse`, in canvas space. -/
abbrev Quad := Vec2 × Vec2 × Vec2 × Vec2

/-- The corner computation of `drawMouse`: direction from previous to current
cursor, normalized left-normal `(-direction.y, direction.x)`, leading edge
`(l1, l2)` taken from the saved trailing edge when both parts are present
(else offset from the previous point by the half-width), and trailing edge
`(l3, l4)` offset from the current point. -/
noncomputable def lineQuad (pL1 pL2 : Option Vec2) (prev cur : Vec2) : Quad :=
  let direction := Vec2.sub cur prev
  let ortho := vnormalize ⟨-direction.y, direction.x⟩
  match pL1, pL2 with
  | some a, some b =>
    (a, b, Vec2.add cur (Vec2.scale ortho (-LINE_WIDTH)),
     Vec2.add cur (Vec2.scale ortho LINE_WIDTH))
  | _, _ =>
    (Vec2.add prev (Vec2.scale ortho (-LINE_WIDTH)),
     Vec2.add prev (Vec2.scale ortho LINE_WIDTH),
     Vec2.add cur (Vec2.scale ortho (-LINE_WIDTH)),
     Vec2.add cur (Vec2.scale ortho LINE_WIDTH))

/-- The stroke-related mutable state: `leftPreviousPos`, the saved trailing
edge `previousL1` / `previousL2`, and the line renderer's first batch.  The
`quads` field is a ghost log recording the corner points of each emitted quad
(in canvas space, before the world/view transform). -/
structure StrokeState where
  leftPreviousPos : Option Vec2
  previousL1 : Option Vec2
  previousL2 : Option Vec2
  batch : BatchR
  quads : List Quad

/-- The two floats pushed for one corner: the canvas point is y-flipped,
converted by `toWorld` and mapped through the inverse camera by `toView`. -/
noncomputable def stagedVertex (W H : ℝ) (invCam : Mat3) (v : Vec2) : List ℝ :=
  [(toView invCam (toWorld W H ⟨v.x, H - v.y⟩)).x,
   (toView invCam (toWorld W H ⟨v.x, H - v.y⟩)).y]

/-- `drawMouse(currentPos)`: on the first point of a stroke only record it;
otherwise emit one quad: push the four transformed corners, save the trailing
edge into `previousL1` / `previousL2`, push the six indices `[0,1,2,1,2,3]`
offset by the pre-update vertex count, bump `vcount` by 4 and `icount` by 6,
and advance `leftPreviousPos`. -/
noncomputable def drawMouseStep (W H : ℝ) (invCam : Mat3) (s : StrokeState)
    (currentPos : Vec2) : StrokeState :=
  match s.leftPreviousPos with
  | none => { s with leftPreviousPos := some currentPos }
  | some prev =>
    let q := lineQuad s.previousL1 s.previousL2 prev currentPos
    { leftPreviousPos := some currentPos
      previousL1 := some q.2.2.1
      previousL2 := some q.2.2.2
      batch := { s.batch with
        vertices := s.batch.vertices ++
          (stagedVertex W H invCam q.1 ++ stagedVertex W H invCam q.2.1 ++
           stagedVertex W H invCam q.2.2.1 ++ stagedVertex W H invCam q.2.2.2)
        indices := s.batch.indices ++ [0, 1, 2, 1, 2, 3].map (fun r => r + s.batch.vcount)
        vcount := s.batch.vcount + 4
        icount := s.batch.icount + 6 }
      quads := s.quads ++ [q] }

/-- A stroke: fold `drawMouse` over successive drag points, each seen with the
inverse camera current at that mouse move. -/
noncomputable def drawFold (W H : ℝ) (ps : List (Vec2 × Mat3)) (s : StrokeState) : StrokeState :=
  ps.foldl (fun st e => drawMouseStep W H e.2 st e.1) s

/-- A full stroke processed from the reset state (`onMouseUp` clears
`leftPreviousPos`, `previousL1` and `previousL2`) over an arbitrary starting
batch `b0`. -/
noncomputable def strokeRun (W H : ℝ) (ps : List (Vec2 × Mat3)) (b0 : BatchR) : StrokeState :=
  drawFold W H ps ⟨none, none, none, b0, []⟩

/-- Quad `b` continues quad `a`: `b`'s leading edge `(l1, l2)` is `a`'s
trailing edge `(l3, l4)`. -/
def edgeRel (a b : Quad) : Prop := b.1 = a.2.2.1 ∧ b.2.1 = a.2.2.2

/-- The saved trailing edge matches the last recorded quad (or nothing is
saved and no quad has been recorded yet). -/
def trailingMatch (s : StrokeState) : Prop :=
  (s.previousL1 = none ∧ s.previousL2 = none ∧ s.quads = []) ∨
  (∃ q, s.quads.getLast? = some q ∧ s.previousL1 = some q.2.2.1 ∧ s.previousL2 = some q.2.2.2)

lemma drawFold_inv (W H : ℝ) (ps : List (Vec2 × Mat3)) :
    ∀ s : StrokeState, s.leftPreviousPos.isSome → trailingMatch s →
      s.quads.Chain' edgeRel →
      (drawFold W H ps s).batch.vertices.length = s.batch.vertices.length + 8 * ps.length ∧
      (drawFold W H ps s).batch.indices.length = s.batch.indices.length + 6 * ps.length ∧
      (drawFold W H ps s).batch.vcount = s.batch.vcount + 4 * ps.length ∧
      (drawFold W H ps s).batch.icount = s.batch.icount + 6 * ps.length ∧
      (drawFold W H ps s).quads.length = s.quads.length + ps.length ∧
      (drawFold W H ps s).leftPreviousPos.isSome ∧
      trailingMatch (drawFold W H ps s) ∧
      (drawFold W H ps s).quads.Chain' edgeRel := by
  induction ps with
  | nil =>
    intro s h1 h2 h3
    exact ⟨by simp [drawFold], by simp [drawFold], by simp [drawFold], by simp [drawFold],
      by simp [drawFold], h1, h2, h3⟩
  | cons e rest ih =>
    intro s h1 h2 h3
    obtain ⟨prev, hprev⟩ := Option.isSome_iff_exists.mp h1
    have hstep : drawFold W H (e :: rest) s = drawFold W H rest (drawMouseStep W H e.2 s e.1) :=
      rfl
    set s2 := drawMouseStep W H e.2 s e.1 with hs2
    have hbv : s2.batch.vertices.length = s.batch.vertices.length + 8 := by
      rw [hs2]; simp [drawMouseStep, hprev, stagedVertex]
    have hbi : s2.batch.indices.length = s.batch.indices.length + 6 := by
      rw [hs2]; simp [drawMouseStep, hprev]
    have hvc : s2.batch.vcount = s.batch.vcount + 4 := by
      rw [hs2]; simp [drawMouseStep, hprev]
    have hic : s2.batch.icount = s.batch.icount + 6 := by
      rw [hs2]; simp [drawMouseStep, hprev]
    have hql : s2.quads = s.quads ++ [lineQuad s.previousL1 s.previousL2 prev e.1] := by
      rw [hs2]; simp [drawMouseStep, hprev]
    have hlp : s2.leftPreviousPos = some e.1 := by
      rw [hs2]; simp [drawMouseStep, hprev]
    have hp1 : s2.previousL1 = some (lineQuad s.previousL1 s.previousL2 prev e.1).2.2.1 := by
      rw [hs2]; simp [drawMouseStep, hprev]
    have hp2 : s2.previousL2 = some (lineQuad s.previousL1 s.previousL2 prev e.1).2.2.2 := by
      rw [hs2]; simp [drawMouseStep, hprev]
    have htm2 : trailingMatch s2 := by
      right
      refine ⟨lineQuad s.previousL1 s.previousL2 prev e.1, ?_, hp1, hp2⟩
      rw [hql]
      exact List.getLast?_concat _
    have hch2 : s2.quads.Chain' edgeRel := by
      rw [hql]
      refine List.Chain'.append h3 (List.chain'_singleton _) ?_
      intro x hx y hy
      rcases h2 with hleft | ⟨ql, hlast, hpl1, hpl2⟩
      · rw [hleft.2.2] at hx
        simp at hx
      · rw [hlast] at hx
        simp at hx
        simp at hy
        subst hx
        subst hy
        rw [hpl1, hpl2]
        exact ⟨rfl, rfl⟩
    have hrec := ih s2 (by rw [hlp]; rfl) htm2 hch2
    rw [hstep]
    refine ⟨?_, ?_, ?_, ?_, ?_, hrec.2.2.2.2.2.1, hrec.2.2.2.2.2.2.1, hrec.2.2.2.2.2.2.2⟩
    · rw [hrec.1, hbv]
      simp only [List.length_cons]
      ring
    · rw [hrec.2.1, hbi]
      simp only [List.length_cons]
      ring
    · rw [hrec.2.2.1, hvc]
      simp only [List.length_cons]
      ring
    · rw [hrec.2.2.2.1, hic]
      simp only [List.length_cons]
      ring
    · rw [hrec.2.2.2.2.1, hql]
      simp only [List.length_cons, List.length_append, List.length_nil]
      ring

/-- C1: a stroke of `N >= 2` consecutive drag points processed by `drawMouse`
from the reset state stages exactly `4(N-1)` vertices (8 floats per quad) and
`6(N-1)` indices, bumps the counts accordingly, emits `N-1` quads, and for
every `k` the trailing edge `(l3, l4)` saved after quad `k` equals the leading
edge `(l1, l2)` used for quad `k+1`: consecutive quads share an edge. -/
theorem stroke_geometry_counts (W H : ℝ) (ps : List (Vec2 × Mat3)) (b0 : BatchR)
    (hN : 2 ≤ ps.length) :
    (strokeRun W H ps b0).batch.vertices.length = b0.vertices.length + 8 * (ps.length - 1) ∧
    (strokeRun W H ps b0).batch.indices.length = b0.indices.length + 6 * (ps.length - 1) ∧
    (strokeRun W H ps b0).batch.vcount = b0.vcount + 4 * (ps.length - 1) ∧
    (strokeRun W H ps b0).batch.icount = b0.icount + 6 * (ps.length - 1) ∧
    (strokeRun W H ps b0).quads.length = ps.length - 1 ∧
    ∀ (k : ℕ) (hk : k + 1 < (strokeRun W H ps b0).quads.length),
      ((strokeRun W H ps b0).quads.get ⟨k + 1, hk⟩).1 =
        ((strokeRun W H ps b0).quads.get ⟨k, Nat.lt_of_succ_lt hk⟩).2.2.1 ∧
      ((strokeRun W H ps b0).quads.get ⟨k + 1, hk⟩).2.1 =
        ((strokeRun W H ps b0).quads.get ⟨k, Nat.lt_of_succ_lt hk⟩).2.2.2 := by
  obtain ⟨p, rest, rfl⟩ : ∃ p rest, ps = p :: rest := by
    cases ps with
    | nil => simp at hN
    | cons p rest => exact ⟨p, rest, rfl⟩
  have hs1 : strokeRun W H (p :: rest) b0 =
      drawFold W H rest ⟨some p.1, none, none, b0, []⟩ := rfl
  have hinv := drawFold_inv W H rest ⟨some p.1, none, none, b0, []⟩ rfl
    (Or.inl ⟨rfl, rfl, rfl⟩) List.chain'_nil
  have hlen : (p :: rest).length - 1 = rest.length := by simp
  rw [hs1, hlen]
  refine ⟨?_, ?_, ?_, ?_, ?_, ?_⟩
  · rw [hinv.1]
  · rw [hinv.2.1]
  · rw [hinv.2.2.1]
  · rw [hinv.2.2.2.1]
  · rw [hinv.2.2.2.2.1]; simp
  · intro k hk
    have hget := List.chain'_iff_get.mp hinv.2.2.2.2.2.2.2
    have hk2 : k < (drawFold W H rest (⟨some p.1, none, none, b0, []⟩ : StrokeState)).quads.length - 1 := by
      omega
    exact ⟨(hget k hk2).1, (hget k hk2).2⟩

/-- The two-point stroke used to instantiate the stroke claims. -/
noncomputable def strokeWitnessInput : List (Vec2 × Mat3) :=
  [(⟨100, 100⟩, Mat3.identity), (⟨110, 100⟩, Mat3.identity)]

theorem stroke_geometry_counts_witness :
    (strokeRun 800 600 strokeWitnessInput BatchR.new).batch.vertices.length =
      BatchR.new.vertices.length + 8 * (strokeWitnessInput.length - 1) :=
  (stroke_geometry_counts 800 600 strokeWitnessInput BatchR.new
    (by simp [strokeWitnessInput])).1

/-- C9: at the start of a stroke (no saved trailing edge), a drag step from
previous cursor `(100, 100)` to current cursor `(110, 100)` with half-width
`LINE_WIDTH = 5` makes `drawMouse` emit the quad with canvas-space corners
`l1 = (100, 95)`, `l2 = (100, 105)`, `l3 = (110, 95)`, `l4 = (110, 105)`:
y-extent `[95, 105]` at both endpoints, a straight horizontal ribbon. -/
theorem first_quad_horizontal :
    (drawMouseStep 800 600 Mat3.identity ⟨some ⟨100, 100⟩, none, none, BatchR.new, []⟩
        ⟨110, 100⟩).quads =
      [(⟨100, 95⟩, ⟨100, 105⟩, ⟨110, 95⟩, ⟨110, 105⟩)] := by
  have hsqrt : Real.sqrt 100 = 10 := by
    rw [show (100 : ℝ) = 10 ^ 2 by norm_num]
    exact Real.sqrt_sq (by norm_num)
  simp only [drawMouseStep, lineQuad, vnormalize, Vec2.sub, Vec2.add, Vec2.scale, LINE_WIDTH]
  norm_num [hsqrt]

/-! ## Image placement (onInputChange) and index discipline -/

/-- The vertex loop of `onInputChange` over the raw array, two entries at a
time: the pair at offset `i` is a position when `(i - 2) % 4` is nonzero and
is transformed like a stroke corner; otherwise it is a texture coordinate and
passes through unchanged. -/
noncomputable def imageVertexLoop (W H : ℝ) (invCam : Mat3) : ℕ → List ℝ → List ℝ
  | i, x :: y :: rest =>
    let p : Vec2 := ⟨x, y⟩
    let p2 := if ((i : ℤ) - 2) % 4 = 0 then p
      else toView invCam (toWorld W H ⟨p.x, H - p.y⟩)
    p2.x :: p2.y :: imageVertexLoop W H invCam (i + 2) rest
  | _, _ => []

/-- The raw quad data `onInputChange` builds at `lastMouse` with the image's
pixel dimensions: interleaved position and texture-coordinate pairs, texture
coordinates mapped corner-to-corner. -/
noncomputable def imageRawVerts (lastMouse : Vec2) (imgW imgH : ℝ) : List ℝ :=
  [lastMouse.x, lastMouse.y, 0, 0,
   lastMouse.x + imgW, lastMouse.y, 1, 0,
   lastMouse.x, lastMouse.y + imgH, 0, 1,
   lastMouse.x + imgW, lastMouse.y + imgH, 1, 1]

/-- The geometry portion of `onInputChange`: allocate a new bind group + batch
pair via `addGroup`, then on the batch at `batchIndex = batches.length - 1`
push the processed quad vertices, push the six indices `vcount + index` for
`index` in `[0,1,2,1,2,3]`, and bump `vcount` by 4 and `icount` by 6. -/
noncomputable def imagePlace {G : Type} (W H : ℝ) (invCam : Mat3) (lastMouse : Vec2)
    (imgW imgH : ℝ) (g : G) (r : RendererR G) : RendererR G :=
  let r1 := r.addGroup g
  let batchIndex := r1.batches.length - 1
  let b := r1.batches.getD batchIndex BatchR.new
  let b2 := { b with
    vertices := b.vertices ++ imageVertexLoop W H invCam 0 (imageRawVerts lastMouse imgW imgH)
    indices := b.indices ++ [0, 1, 2, 1, 2, 3].map (fun ix => b.vcount + ix)
    vcount := b.vcount + 4
    icount := b.icount + 6 }
  { r1 with batches := r1.batches.set batchIndex b2 }

lemma list_concat_set {α : Type} (l : List α) (a b : α) :
    (l ++ [a]).set l.length b = l ++ [b] := by
  induction l with
  | nil => rfl
  | cons x xs ihl => simp [List.set, ihl]

/-- The index-discipline invariant: every staged index references a vertex
already counted, and the accumulated counts keep the six-indices-per-four-
vertices ratio (`icount = (3/2) vcount`, stated integrally). -/
def BatchInv (b : BatchR) : Prop :=
  (∀ ix ∈ b.indices, ix < b.vcount) ∧ 2 * b.icount = 3 * b.vcount

/-- C10: both geometry-emitting operations push exactly the six relative
indices `0,1,2,1,2,3` offset by the batch's pre-update vertex count and then
bump `vcount` by 4 and `icount` by 6 (`drawMouse` whenever it emits, and the
image placement on its freshly created batch, whose pre-update `vcount` is 0);
consequently every staged index stays strictly below the batch's total vertex
count and `2 icount = 3 vcount` is preserved. -/
theorem quad_index_discipline :
    (∀ (W H : ℝ) (invCam : Mat3) (s : StrokeState) (p : Vec2), BatchInv s.batch →
      BatchInv (drawMouseStep W H invCam s p).batch ∧
      (s.leftPreviousPos.isSome →
        (drawMouseStep W H invCam s p).batch.indices =
          s.batch.indices ++ [s.batch.vcount, s.batch.vcount + 1, s.batch.vcount + 2,
            s.batch.vcount + 1, s.batch.vcount + 2, s.batch.vcount + 3] ∧
        (drawMouseStep W H invCam s p).batch.vcount = s.batch.vcount + 4 ∧
        (drawMouseStep W H invCam s p).batch.icount = s.batch.icount + 6)) ∧
    (∀ (G : Type) (W H imgW imgH : ℝ) (invCam : Mat3) (lm : Vec2) (g : G) (r : RendererR G),
      ∃ b2, (imagePlace W H invCam lm imgW imgH g r).batches[r.batches.length]? = some b2 ∧
        b2.indices = [0, 1, 2, 1, 2, 3] ∧ b2.vcount = 4 ∧ b2.icount = 6 ∧ BatchInv b2) := by
  constructor
  · intro W H invCam s p hinv
    cases hlp : s.leftPreviousPos with
    | none =>
      refine ⟨by simpa [drawMouseStep, hlp] using hinv, ?_⟩
      intro hcon
      simp at hcon
    | some prev =>
      have hvc : (drawMouseStep W H invCam s p).batch.vcount = s.batch.vcount + 4 := by
        simp [drawMouseStep, hlp]
      have hic : (drawMouseStep W H invCam s p).batch.icount = s.batch.icount + 6 := by
        simp [drawMouseStep, hlp]
      have hidx : (drawMouseStep W H invCam s p).batch.indices =
          s.batch.indices ++ [s.batch.vcount, s.batch.vcount + 1, s.batch.vcount + 2,
            s.batch.vcount + 1, s.batch.vcount + 2, s.batch.vcount + 3] := by
        simp [drawMouseStep, hlp]
        omega
      refine ⟨⟨?_, ?_⟩, fun _ => ⟨hidx, hvc, hic⟩⟩
      · intro ix hix
        rw [hidx] at hix
        rw [hvc]
        rcases List.mem_append.mp hix with hmem | hmem
        · exact lt_of_lt_of_le (hinv.1 ix hmem) (by omega)
        · simp at hmem
          omega
      · rw [hvc, hic]
        have := hinv.2
        omega
  · intro G W H imgW imgH invCam lm g r
    have hset : (imagePlace W H invCam lm imgW imgH g r).batches =
        r.batches ++ [{ vertices := imageVertexLoop W H invCam 0 (imageRawVerts lm imgW imgH),
                        indices := [0, 1, 2, 1, 2, 3], vstart := 0, istart := 0,
                        vcount := 4, icount := 6 }] := by
      simp only [imagePlace, RendererR.addGroup, List.length_append, List.length_singleton,
        Nat.add_sub_cancel, List.getD_eq_getElem?_getD, List.getElem?_concat_length,
        Option.getD_some, list_concat_set]
      simp [BatchR.new]
    refine ⟨{ vertices := imageVertexLoop W H invCam 0 (imageRawVerts lm imgW imgH),
              indices := [0, 1, 2, 1, 2, 3], vstart := 0, istart := 0,
              vcount := 4, icount := 6 }, ?_, rfl, rfl, rfl, ?_, ?_⟩
    · rw [hset]
      exact List.getElem?_concat_length _ _
    · intro ix hix
      simp at hix
      show ix < 4
      omega
    · show 2 * 6 = 3 * 4
      norm_num

theorem quad_index_discipline_witness :
    BatchInv (drawMouseStep 800 600 Mat3.identity
      ⟨some ⟨100, 100⟩, none, none, BatchR.new, []⟩ ⟨110, 100⟩).batch :=
  (quad_index_discipline.1 800 600 Mat3.identity
    ⟨some ⟨100, 100⟩, none, none, BatchR.new, []⟩ ⟨110, 100⟩
    ⟨by simp [BatchR.new], by simp [BatchR.new]⟩).1
